import Mathlib

/-! # kcl produce: delimiter compiler, stream tokenizer and pairing loop

A shallow embedding of `produce.go`:

* `parseDelim`      : the escape-sequence compiler of the `--delim` flag,
* `splitDelimFn`    : the `bufio.SplitFunc` built from the compiled delimiter,
* `Scanner.Scan`    : the `bufio.Scanner` loop that drives the split function
                      over growing buffers,
* `BufScanner.Scan` : the same loop with its buffer and the `--max-read-buf` limit,
* `produceLoop`     : the record-construction / pairing loop of `produceCmd`.

Bytes are natural numbers (a Go `string` or `[]byte` is a `List Nat`), Go `int`
results are `Int`, and `die` (which prints and calls `os.Exit(1)`) is the error
branch of `Except`.
-/

namespace Kcl

/-! ## Go standard library pieces used by `produce.go` -/

/-- The `*strconv.NumError` causes `strconv.ParseInt` can return. -/
inductive NumError
  | errSyntax
  | errRange
  deriving DecidableEq, Repr

/-- The digit loop of `strconv.ParseUint(s, 16, 8)`: `cutoff = maxUint64/16 + 1`,
`maxVal = 1<<8 - 1`.  Base 16 is not base 0, so an underscore is a syntax error. -/
def parseUintLoop : List Nat → Nat → Except NumError Nat
  | [], n => .ok n
  | c :: cs, n =>
    let lower := c ||| 0x20
    let digit : Option Nat :=
      if 0x30 ≤ c ∧ c ≤ 0x39 then some (c - 0x30)
      else if 0x61 ≤ lower ∧ lower ≤ 0x7a then some (lower - 0x61 + 10)
      else none
    match digit with
    | none => .error .errSyntax
    | some d =>
      if d ≥ 16 then .error .errSyntax
      else if n ≥ 2 ^ 64 / 16 + 1 then .error .errRange
      else
        let n1 := n * 16 + d
        if n1 > 255 then .error .errRange
        else parseUintLoop cs n1

/-- `strconv.ParseUint(s, 16, 8)`. -/
def ParseUint (s : List Nat) : Except NumError Nat :=
  if s = [] then .error .errSyntax else parseUintLoop s 0

/-- `strconv.ParseInt(s, 16, 8)`: an optional sign, then `ParseUint`, then the
signed range check against `cutoff = 1 << 7`.  With bit size 8 a `ParseUint`
range error and a value at or above the cutoff both end in `ErrRange`. -/
def ParseInt (s : List Nat) : Except NumError Int :=
  match s with
  | [] => .error .errSyntax
  | c :: cs =>
    let neg : Bool := c = 0x2d
    let digits : List Nat := if c = 0x2b ∨ c = 0x2d then cs else c :: cs
    match ParseUint digits with
    | .error .errSyntax => .error .errSyntax
    | .error .errRange => .error .errRange
    | .ok un =>
      if !neg ∧ un ≥ 128 then .error .errRange
      else if neg ∧ un > 128 then .error .errRange
      else .ok (if neg then -(un : Int) else (un : Int))

/-- The Go conversion `byte(n)` of an `int64`. -/
def byteOf (n : Int) : Nat := (n % 256).toNat

/-! ## `parseDelim` -/

/-- The `die` calls of `parseDelim`, one constructor per message. -/
inductive DelimError
  /-- Message "invalid slash escape at end of delim string". -/
  | slashAtEnd
  /-- Message "invalid non-terminated hex escape sequence at end of delim string". -/
  | hexNotTerminated
  /-- Message "unable to parse hex escape sequence %q: %v". -/
  | hexParse (hex : List Nat) (cause : NumError)
  /-- Message "unknown slash escape sequence %q". -/
  | unknownEscape (c : Nat)
  deriving DecidableEq, Repr

/-- The `for len(in) > 0` loop of `parseDelim`, with the input still to read and
the output built so far. -/
def parseDelimLoop : List Nat → List Nat → Except DelimError (List Nat)
  | [], out => .ok out
  | b :: rest, out =>
    if b = 0x5c then
      match rest with
      | [] => .error .slashAtEnd
      | c :: rest1 =>
        if c = 0x74 then parseDelimLoop rest1 (out ++ [0x09])
        else if c = 0x6e then parseDelimLoop rest1 (out ++ [0x0a])
        else if c = 0x72 then parseDelimLoop rest1 (out ++ [0x0d])
        else if c = 0x78 then
          match rest1 with
          | h1 :: h2 :: rest2 =>
            match ParseInt [h1, h2] with
            | .error e => .error (.hexParse [h1, h2] e)
            | .ok n => parseDelimLoop rest2 (out ++ [byteOf n])
          | _ => .error .hexNotTerminated
        else .error (.unknownEscape c)
    else parseDelimLoop rest (out ++ [b])

/-- `parseDelim(in string) []byte`. -/
def parseDelim (spec : List Nat) : Except DelimError (List Nat) :=
  parseDelimLoop spec []

/-! ## `splitDelimFn` -/

/-- Position of the first instance of `sep` in a byte list, if there is one. -/
def indexOf? (sep : List Nat) : List Nat → Option Nat
  | [] => if sep.isPrefixOf [] then some 0 else none
  | c :: s => if sep.isPrefixOf (c :: s) then some 0 else (indexOf? sep s).map (· + 1)

/-- Go `bytes.Index(s, sep)`: the index of the first instance of `sep` in `s`,
or `-1` if `sep` is not present in `s`. -/
def bytesIndex (s sep : List Nat) : Int :=
  match indexOf? sep s with
  | some i => (i : Int)
  | none => -1

/-- The three results `(advance int, token []byte, err error)` of a
`bufio.SplitFunc`; `none` is Go's `nil`. -/
structure SplitResult where
  advance : Int
  token : Option (List Nat)
  err : Option String
  deriving DecidableEq, Repr

/-- A `bufio.SplitFunc`. -/
abbrev SplitFunc := List Nat → Bool → SplitResult

/-- `splitDelimFn(delim)`: the closure it returns, applied to `data` and `atEOF`. -/
def splitDelimFn (delim : List Nat) : SplitFunc := fun data atEOF =>
  if atEOF ∧ data.length = 0 then ⟨0, none, none⟩
  else
    let i := bytesIndex data delim
    if i ≥ 0 then ⟨i + 1, some (data.take i.toNat), none⟩
    else if atEOF then ⟨data.length, some data, none⟩
    else ⟨0, none, none⟩

/-! ## The `bufio.Scanner` loop

This section drives a split function over a sequence of growing buffers: the
buffer can always grow, and the reader hands over its data one chunk per `Read`
and reports `io.EOF` once the chunks are used up.  The scanner with the buffer
limit of `--max-read-buf` is the subject of the next section.  The guards of the
scanner against a reader or a split function that makes no progress (a hundred
empty reads, or a hundred empty tokens, in a row) are left out: the properties
below are stated for non-empty chunks, and `splitDelimFn` advances with every
token. -/

/-- The values the scanner keeps in `s.err`. -/
inductive ScanErr
  | eof
  | negativeAdvance
  | advanceTooFar
  | splitErr (msg : String)
  | tooLong
  | noProgress
  deriving DecidableEq, Repr

/-- State of a `bufio.Scanner`: `buf` is `s.buf[s.start:s.end]`, `src` the chunks
the reader has not delivered yet, `err` is `s.err`. -/
structure Scanner where
  buf : List Nat
  src : List (List Nat)
  err : Option ScanErr
  deriving DecidableEq, Repr

/-- A scanner on a reader that will deliver `chunks`, before the first `Scan`. -/
def Scanner.new (chunks : List (List Nat)) : Scanner := ⟨[], chunks, none⟩

/-- A scanner that holds all of `s` in its buffer and has already seen `io.EOF`. -/
def Scanner.whole (s : List Nat) : Scanner := ⟨s, [], some .eof⟩

/-- Go `s.setErr(err)`: records the error unless another one than `io.EOF` is
already recorded. -/
def setErr (cur : Option ScanErr) (e : ScanErr) : Option ScanErr :=
  if cur = none ∨ cur = some .eof then some e else cur

/-- Outcome of the block `if s.end > s.start || s.err != nil` of `Scan`. -/
inductive Attempt
  /-- A token was produced, `Scan` returns true; `buf` is the buffer after the advance. -/
  | token (tok : List Nat) (buf : List Nat)
  /-- The split function failed or its advance was refused, `Scan` returns false. -/
  | stop (e : ScanErr)
  /-- No token; `buf` is the buffer after the advance. -/
  | more (buf : List Nat)
  deriving DecidableEq, Repr

/-- The block `if s.end > s.start || s.err != nil` of `Scan`: one call of the
split function and `s.advance`. -/
def attempt (split : SplitFunc) (buf : List Nat) (atEOF : Bool) : Attempt :=
  if buf.length > 0 ∨ atEOF then
    let r := split buf atEOF
    match r.err with
    | some e => .stop (.splitErr e)
    | none =>
      if r.advance < 0 then .stop .negativeAdvance
      else if r.advance > buf.length then .stop .advanceTooFar
      else
        match r.token with
        | some tok => .token tok (buf.drop r.advance.toNat)
        | none => .more (buf.drop r.advance.toNat)
  else .more buf

/-- One pass of the `Scan` loop once `s.err` is set (`err` is its value): the
split function sees `atEOF = true`, and without a token `Scan` returns false. -/
def scanAtEOF (split : SplitFunc) (buf : List Nat) (err : ScanErr) :
    Option (List Nat) × Scanner :=
  match attempt split buf true with
  | .token tok buf1 => (some tok, ⟨buf1, [], some err⟩)
  | .stop e => (none, ⟨buf, [], setErr (some err) e⟩)
  | .more _ => (none, ⟨[], [], some err⟩)

/-- The `Scan` loop while `s.err` is nil, over a buffer that grows without a
limit: try the buffer, and without a token read the next chunk and go round
again; a reader without chunks reports `io.EOF`. -/
def scanLoop (split : SplitFunc) : List (List Nat) → List Nat → Option (List Nat) × Scanner
  | [], buf =>
    match attempt split buf false with
    | .token tok buf1 => (some tok, ⟨buf1, [], none⟩)
    | .stop e => (none, ⟨buf, [], some e⟩)
    | .more buf1 => scanAtEOF split buf1 .eof
  | c :: src, buf =>
    match attempt split buf false with
    | .token tok buf1 => (some tok, ⟨buf1, c :: src, none⟩)
    | .stop e => (none, ⟨buf, c :: src, some e⟩)
    | .more buf1 => scanLoop split src (buf1 ++ c)

/-- Go `(*Scanner).Scan`: `some tok` when it returns true with `s.Bytes() = tok`,
`none` when it returns false; together with the scanner afterwards. -/
def Scanner.Scan (split : SplitFunc) (sc : Scanner) : Option (List Nat) × Scanner :=
  match sc.err with
  | none => scanLoop split sc.src sc.buf
  | some e => scanAtEOF split sc.buf e

/-- The tokens of the loop `for scanner.Scan()`: `Scan` is called until it returns
false.  `none` means the given number of calls did not reach that point. -/
def scanAll (split : SplitFunc) : Nat → Scanner → Option (List (List Nat))
  | 0, _ => none
  | fuel + 1, sc =>
    match sc.Scan split with
    | (none, _) => some []
    | (some tok, sc1) => (scanAll split fuel sc1).map (tok :: ·)

/-! ## The `bufio.Scanner` loop with its buffer

The scanner as `produceCmd` sets it up, `scanner.Buffer(nil, maxBuf)`: the
buffer starts empty, grows by doubling from 4096 bytes up to `maxBuf`, and a
full buffer of `maxBuf` bytes without a token stops the scan with
`ErrTooLong`.  The reader holds its data in bursts: a `Read` into `free` bytes
of buffer delivers the next burst, or its first `free` bytes when it is longer,
and `io.EOF` when nothing is left, so a `Read` never returns more than it was
asked for.  Sizes are natural numbers, so the guard of the scanner against
overflow of the doubling is left out. -/

/-- State of a `bufio.Scanner` with its buffer: `start` is `s.start`, `buf` is
`s.buf[s.start:s.end]`, `size` is `len(s.buf)`, `src` the bursts the reader still
holds, `err` is `s.err`. -/
structure BufScanner where
  start : Nat
  buf : List Nat
  size : Nat
  src : List (List Nat)
  err : Option ScanErr
  deriving DecidableEq, Repr

/-- The scanner after `bufio.NewScanner` and `scanner.Buffer(nil, maxBuf)`, on a
reader that holds `chunks`. -/
def BufScanner.new (chunks : List (List Nat)) : BufScanner := ⟨0, [], 0, chunks, none⟩

/-- The loop around `s.r.Read(s.buf[s.end:len(s.buf)])`, with `free` bytes of
buffer behind `s.end` and `left` reads to go before `io.ErrNoProgress`: the bytes
read, the reader afterwards, and the error to record. -/
def readLoop (free : Nat) : Nat → List (List Nat) → List Nat × List (List Nat) × Option ScanErr
  | 0, src => ([], src, some .noProgress)
  | _ + 1, [] => ([], [], some .eof)
  | left + 1, c :: rest =>
    if c.length ≤ free then
      if c = [] then readLoop free left rest else (c, rest, none)
    else if free = 0 then readLoop free left (c :: rest)
    else (c.take free, c.drop free :: rest, none)

/-- The read step of `Scan`: `maxConsecutiveEmptyReads` is 100, so the hundred
and first empty read in a row gives up. -/
def readInto (sc : BufScanner) : BufScanner :=
  match readLoop (sc.size - (sc.start + sc.buf.length)) 101 sc.src with
  | (data, src1, err) => { sc with buf := sc.buf ++ data, src := src1, err := err }

/-- How one round of the `for` loop of `Scan` ends. -/
inductive Round
  /-- The call returns: true with the token `some tok`, or false. -/
  | done (tok : Option (List Nat)) (sc : BufScanner)
  /-- The loop goes round again. -/
  | again (sc : BufScanner)
  deriving DecidableEq, Repr

/-- The second half of a round of `Scan`, when there is no token: return false
once `s.err` is set; otherwise shift the data to the front of the buffer, grow a
full buffer or stop with `ErrTooLong` at `maxBuf`, and read. -/
def fill (maxBuf : Int) (sc : BufScanner) : Round :=
  if sc.err ≠ none then .done none { sc with start := 0, buf := [] }
  else
    let start1 :=
      if sc.start > 0 ∧ (sc.start + sc.buf.length = sc.size ∨ sc.start > sc.size / 2) then 0
      else sc.start
    if start1 + sc.buf.length = sc.size then
      if (sc.size : Int) ≥ maxBuf then .done none { sc with start := start1, err := some .tooLong }
      else
        let doubled := if sc.size * 2 = 0 then 4096 else sc.size * 2
        let newSize := if (doubled : Int) > maxBuf then maxBuf.toNat else doubled
        .again (readInto { sc with start := 0, size := newSize })
    else .again (readInto { sc with start := start1 })

/-- One round of the `for` loop of `Scan`: with data in the buffer, or `s.err`
set, call the split function and `s.advance`; without a token go on to `fill`. -/
def scanRound (split : SplitFunc) (maxBuf : Int) (sc : BufScanner) : Round :=
  let atEOF : Bool := sc.err.isSome
  if sc.buf.length > 0 ∨ atEOF then
    let r := split sc.buf atEOF
    match r.err with
    | some e => .done none { sc with err := setErr sc.err (.splitErr e) }
    | none =>
      if r.advance < 0 then .done none { sc with err := setErr sc.err .negativeAdvance }
      else if r.advance > sc.buf.length then
        .done none { sc with err := setErr sc.err .advanceTooFar }
      else
        let sc1 : BufScanner :=
          { sc with start := sc.start + r.advance.toNat, buf := sc.buf.drop r.advance.toNat }
        match r.token with
        | some tok => .done (some tok) sc1
        | none => fill maxBuf sc1
  else fill maxBuf sc

/-- Go `(*Scanner).Scan` on the scanner with its buffer, for at most `rounds`
rounds of its loop: `some (some tok, sc)` when it returns true with
`s.Bytes() = tok`, `some (none, sc)` when it returns false, and `none` when the
rounds are used up before it returns. -/
def BufScanner.Scan (split : SplitFunc) (maxBuf : Int) :
    Nat → BufScanner → Option (Option (List Nat) × BufScanner)
  | 0, _ => none
  | rounds + 1, sc =>
    match scanRound split maxBuf sc with
    | .done tok sc1 => some (tok, sc1)
    | .again sc1 => BufScanner.Scan split maxBuf rounds sc1

/-- The tokens of the loop `for scanner.Scan()` on the scanner with its buffer:
`Scan` is called, with `rounds` rounds each, until it returns false.  `none`
means the rounds or the given number of calls did not reach that point. -/
def scanAllBuf (split : SplitFunc) (maxBuf : Int) (rounds : Nat) :
    Nat → BufScanner → Option (List (List Nat))
  | 0, _ => none
  | calls + 1, sc =>
    match sc.Scan split maxBuf rounds with
    | none => none
    | some (none, _) => some []
    | some (some tok, sc1) => (scanAllBuf split maxBuf rounds calls sc1).map (tok :: ·)

/-- The tokens of the loop `for scanner.Scan()` as set up by `produceCmd` with
`--max-read-buf maxBuf`, with `fuel` as the bound on calls and on rounds. -/
def scanTokens (split : SplitFunc) (maxBuf : Int) (fuel : Nat) (sc : BufScanner) :
    Option (List (List Nat)) :=
  scanAllBuf split maxBuf fuel fuel sc

/-! ## The produce loop -/

/-- The fields of `kgo.Record` the loop sets; `key = none` is a nil `Key`. -/
structure Record where
  topic : String
  key : Option (List Nat)
  value : List Nat
  deriving DecidableEq, Repr

/-- The Go expression `append(make([]byte, len(tok)), tok...)`: `make` gives a
slice of `len(tok)` zero bytes and `append` puts the token behind it. -/
def appendToMake (tok : List Nat) : List Nat :=
  List.replicate tok.length 0 ++ tok

/-- The `die` calls reachable from the loop of `produceCmd`. -/
inductive ProduceError
  /-- Message "missing final value delim". -/
  | missingFinalValue
  /-- Message "unable to produce record: %v". -/
  | unableToProduce (cause : String)
  deriving DecidableEq, Repr

/-- What the loop did: the records `client().Produce` accepted, in order, and
the `die` that ended the process, if any. -/
structure ProduceOutcome where
  sent : List Record
  died : Option ProduceError
  deriving DecidableEq, Repr

/-- The loop `for scanner.Scan()` of `produceCmd` over the tokens for which
`Scan` returns true.  `keyed` is `keyDelim != ""`, `topic` is `args[0]`,
`produce r` is the error returned by `client().Produce(r, ...)`, and `sent` the
records accepted so far. -/
def produceLoop (keyed : Bool) (topic : String) (produce : Record → Option String) :
    List (List Nat) → List Record → ProduceOutcome
  | [], sent => ⟨sent, none⟩
  | tok :: rest, sent =>
    if keyed then
      match rest with
      | [] => ⟨sent, some .missingFinalValue⟩
      | tok2 :: rest2 =>
        let r : Record := ⟨topic, some (appendToMake tok), appendToMake tok2⟩
        match produce r with
        | some e => ⟨sent, some (.unableToProduce e)⟩
        | none => produceLoop keyed topic produce rest2 (sent ++ [r])
    else
      let r : Record := ⟨topic, none, appendToMake tok⟩
      match produce r with
      | some e => ⟨sent, some (.unableToProduce e)⟩
      | none => produceLoop keyed topic produce rest (sent ++ [r])

/-! ## Definitions used to state and prove the properties -/

/-- A spec with an incomplete or unknown escape.  The scan of `parseDelim` stands
at the top of its loop behind a prefix `pre` exactly when `pre` compiles on its
own, and a backslash met there starts an escape. -/
inductive BadEscape : List Nat → Prop
  /-- The last character is a backslash. -/
  | trailing (s : List Nat) : BadEscape (s ++ [0x5c])
  /-- An escape-starting backslash is followed by a character other than t, n, r, x. -/
  | unknown (pre out : List Nat) (c : Nat) (rest : List Nat) :
      parseDelim pre = .ok out → c ≠ 0x74 → c ≠ 0x6e → c ≠ 0x72 → c ≠ 0x78 →
      BadEscape (pre ++ 0x5c :: c :: rest)
  /-- An escape-starting backslash-x is followed by fewer than two characters. -/
  | shortHex (pre out rest : List Nat) :
      parseDelim pre = .ok out → rest.length < 2 →
      BadEscape (pre ++ 0x5c :: 0x78 :: rest)

/-- The scanner states the loop of `produceCmd` goes through: no error yet, or
`io.EOF` recorded and the reader used up. -/
def Scanner.Ok (sc : Scanner) : Prop :=
  sc.err = none ∨ (sc.err = some .eof ∧ sc.src = [])

/-- The input a scanner has not turned into tokens yet: its buffer followed by
what the reader will still deliver. -/
def Scanner.remaining (sc : Scanner) : List Nat := sc.buf ++ sc.src.flatten

/-- What one `Scan` with `splitDelimFn delim` makes of the remaining input:
nothing at the end of the input, otherwise the token and the input left. -/
def nextToken (delim rest : List Nat) : Option (List Nat × List Nat) :=
  if rest = [] then none
  else
    match indexOf? delim rest with
    | some i => some (rest.take i, rest.drop (i + 1))
    | none => some (rest, [])

/-- The tokens `nextToken` gives when it is applied over and over, at most
`fuel` times. -/
def tokensOf (delim : List Nat) : Nat → List Nat → List (List Nat)
  | 0, _ => []
  | fuel + 1, rest =>
    match nextToken delim rest with
    | none => []
    | some (tok, rest1) => tok :: tokensOf delim fuel rest1

/-- The result `r` of a `Scan` agrees with `nextToken` on the remaining input
`rest`: no token at the end of the input, otherwise that token, and a scanner
that still has exactly the input left to deliver. -/
def ScanMeets (delim : List Nat) (r : Option (List Nat) × Scanner) (rest : List Nat) : Prop :=
  match nextToken delim rest with
  | none => r.1 = none
  | some (tok, rest1) => r.1 = some tok ∧ r.2.Ok ∧ r.2.remaining = rest1

/-- The records keyed mode builds from a token sequence: one per complete pair
of consecutive tokens, the first token in the key and the second in the value,
each through `appendToMake`. -/
def pairRecords (topic : String) : List (List Nat) → List Record
  | k :: v :: rest => ⟨topic, some (appendToMake k), appendToMake v⟩ :: pairRecords topic rest
  | _ => []

/-- The records value-only mode builds from a token sequence: one per token,
without a key. -/
def valueRecords (topic : String) (toks : List (List Nat)) : List Record :=
  toks.map fun tok => ⟨topic, none, appendToMake tok⟩

/-- The states of the scanner with its buffer that the loop of `produceCmd` goes
through on a reader with non-empty bursts: no error yet, or `io.EOF` recorded
and the reader used up; the data lies inside the buffer. -/
def BufScanner.Ok (sc : BufScanner) : Prop :=
  (sc.err = none ∨ (sc.err = some .eof ∧ sc.src = [])) ∧
  sc.start + sc.buf.length ≤ sc.size ∧
  ∀ c ∈ sc.src, c ≠ []

/-- The input a scanner with its buffer has not turned into tokens yet. -/
def BufScanner.remaining (sc : BufScanner) : List Nat := sc.buf ++ sc.src.flatten

/-- A bound on the rounds the next `Scan` takes. -/
def BufScanner.rounds (sc : BufScanner) : Nat :=
  sc.src.flatten.length + (if sc.err = none then 2 else 1)

/-- The next token of `rest` fits a buffer of `maxBuf` bytes: every beginning of
`rest` without a complete delimiter is shorter than `maxBuf`. -/
def Fits (delim : List Nat) (maxBuf : Int) (rest : List Nat) : Prop :=
  ∀ k, k ≤ rest.length → indexOf? delim (rest.take k) = none → (k : Int) < maxBuf

/-- The result `r` of a `Scan` of the scanner with its buffer agrees with
`nextToken` on the remaining input `rest`. -/
def BufMeets (delim : List Nat) (r : Option (List Nat) × BufScanner) (rest : List Nat) : Prop :=
  match nextToken delim rest with
  | none => r.1 = none
  | some (tok, rest1) => r.1 = some tok ∧ r.2.Ok ∧ r.2.remaining = rest1

/-! ## Lemmas on `parseDelim` -/

theorem parseDelimLoop_lit {b : Nat} (hb : b ≠ 0x5c) (rest out : List Nat) :
    parseDelimLoop (b :: rest) out = parseDelimLoop rest (out ++ [b]) := by
  rw [parseDelimLoop.eq_def]; simp [hb]

theorem parseDelimLoop_end (out : List Nat) :
    parseDelimLoop [0x5c] out = .error .slashAtEnd := by
  rw [parseDelimLoop.eq_def]; simp

theorem parseDelimLoop_t (rest out : List Nat) :
    parseDelimLoop (0x5c :: 0x74 :: rest) out = parseDelimLoop rest (out ++ [0x09]) := by
  rw [parseDelimLoop.eq_def]; simp

theorem parseDelimLoop_n (rest out : List Nat) :
    parseDelimLoop (0x5c :: 0x6e :: rest) out = parseDelimLoop rest (out ++ [0x0a]) := by
  rw [parseDelimLoop.eq_def]; simp

theorem parseDelimLoop_r (rest out : List Nat) :
    parseDelimLoop (0x5c :: 0x72 :: rest) out = parseDelimLoop rest (out ++ [0x0d]) := by
  rw [parseDelimLoop.eq_def]; simp

theorem parseDelimLoop_unknown {c : Nat} (ht : c ≠ 0x74) (hn : c ≠ 0x6e) (hr : c ≠ 0x72)
    (hx : c ≠ 0x78) (rest out : List Nat) :
    parseDelimLoop (0x5c :: c :: rest) out = .error (.unknownEscape c) := by
  rw [parseDelimLoop.eq_def]; simp [ht, hn, hr, hx]

theorem parseDelimLoop_x_nil (out : List Nat) :
    parseDelimLoop [0x5c, 0x78] out = .error .hexNotTerminated := by
  rw [parseDelimLoop.eq_def]; simp

theorem parseDelimLoop_x_one (h1 : Nat) (out : List Nat) :
    parseDelimLoop [0x5c, 0x78, h1] out = .error .hexNotTerminated := by
  rw [parseDelimLoop.eq_def]; simp

theorem parseDelimLoop_x_ok {h1 h2 : Nat} {n : Int} (h : ParseInt [h1, h2] = .ok n)
    (rest out : List Nat) :
    parseDelimLoop (0x5c :: 0x78 :: h1 :: h2 :: rest) out
      = parseDelimLoop rest (out ++ [byteOf n]) := by
  rw [parseDelimLoop.eq_def]; simp [h]

theorem parseDelimLoop_x_err {h1 h2 : Nat} {e : NumError} (h : ParseInt [h1, h2] = .error e)
    (rest out : List Nat) :
    parseDelimLoop (0x5c :: 0x78 :: h1 :: h2 :: rest) out = .error (.hexParse [h1, h2] e) := by
  rw [parseDelimLoop.eq_def]; simp [h]

/-- A prefix that compiles without error is compiled the same way in front of
any continuation; the scan then goes on at the continuation. -/
theorem parseDelimLoop_append_aux (n : Nat) :
    ∀ pre out0 out rest : List Nat, pre.length ≤ n →
      parseDelimLoop pre out0 = .ok out →
      parseDelimLoop (pre ++ rest) out0 = parseDelimLoop rest out := by
  induction n with
  | zero =>
    intro pre out0 out rest hlen h
    have hp : pre = [] := List.length_eq_zero.mp (by omega)
    subst hp
    simp only [parseDelimLoop, Except.ok.injEq] at h
    simp [h]
  | succ n ih =>
    intro pre out0 out rest hlen h
    rcases pre with _ | ⟨b, pre1⟩
    · simp only [parseDelimLoop, Except.ok.injEq] at h
      simp [h]
    · simp only [List.length_cons] at hlen
      by_cases hb : b = 0x5c
      · subst hb
        rcases pre1 with _ | ⟨c, pre2⟩
        · rw [parseDelimLoop_end] at h; cases h
        · simp only [List.length_cons] at hlen
          by_cases ht : c = 0x74
          · subst ht
            rw [parseDelimLoop_t] at h
            rw [List.cons_append, List.cons_append, parseDelimLoop_t]
            exact ih _ _ _ _ (by omega) h
          by_cases hn : c = 0x6e
          · subst hn
            rw [parseDelimLoop_n] at h
            rw [List.cons_append, List.cons_append, parseDelimLoop_n]
            exact ih _ _ _ _ (by omega) h
          by_cases hr : c = 0x72
          · subst hr
            rw [parseDelimLoop_r] at h
            rw [List.cons_append, List.cons_append, parseDelimLoop_r]
            exact ih _ _ _ _ (by omega) h
          by_cases hx : c = 0x78
          · subst hx
            rcases pre2 with _ | ⟨h1, _ | ⟨h2, pre3⟩⟩
            · rw [parseDelimLoop_x_nil] at h; cases h
            · rw [parseDelimLoop_x_one] at h; cases h
            · simp only [List.length_cons] at hlen
              cases hp : ParseInt [h1, h2] with
              | error e => rw [parseDelimLoop_x_err hp] at h; cases h
              | ok v =>
                rw [parseDelimLoop_x_ok hp] at h
                simp only [List.cons_append]
                rw [parseDelimLoop_x_ok hp]
                exact ih _ _ _ _ (by omega) h
          · rw [parseDelimLoop_unknown ht hn hr hx] at h; cases h
      · rw [parseDelimLoop_lit hb] at h
        rw [List.cons_append, parseDelimLoop_lit hb]
        exact ih _ _ _ _ (by omega) h

theorem parseDelimLoop_append {pre out0 out : List Nat} (rest : List Nat)
    (h : parseDelimLoop pre out0 = .ok out) :
    parseDelimLoop (pre ++ rest) out0 = parseDelimLoop rest out :=
  parseDelimLoop_append_aux pre.length pre out0 out rest (le_refl _) h

/-- One round of the loop: when a non-empty spec compiles, the first round
appends exactly one byte and leaves a strictly shorter input. -/
theorem parseDelimLoop_step {b : Nat} {rest out0 out : List Nat}
    (h : parseDelimLoop (b :: rest) out0 = .ok out) :
    ∃ v rest1, rest1.length ≤ rest.length ∧ parseDelimLoop rest1 (out0 ++ [v]) = .ok out := by
  by_cases hb : b = 0x5c
  · subst hb
    rcases rest with _ | ⟨c, pre2⟩
    · rw [parseDelimLoop_end] at h; cases h
    · by_cases ht : c = 0x74
      · subst ht
        rw [parseDelimLoop_t] at h
        exact ⟨_, _, by simp, h⟩
      by_cases hn : c = 0x6e
      · subst hn
        rw [parseDelimLoop_n] at h
        exact ⟨_, _, by simp, h⟩
      by_cases hr : c = 0x72
      · subst hr
        rw [parseDelimLoop_r] at h
        exact ⟨_, _, by simp, h⟩
      by_cases hx : c = 0x78
      · subst hx
        rcases pre2 with _ | ⟨h1, _ | ⟨h2, pre3⟩⟩
        · rw [parseDelimLoop_x_nil] at h; cases h
        · rw [parseDelimLoop_x_one] at h; cases h
        · cases hp : ParseInt [h1, h2] with
          | error e => rw [parseDelimLoop_x_err hp] at h; cases h
          | ok v =>
            rw [parseDelimLoop_x_ok hp] at h
            exact ⟨_, _, by simp; omega, h⟩
      · rw [parseDelimLoop_unknown ht hn hr hx] at h; cases h
  · rw [parseDelimLoop_lit hb] at h
    exact ⟨_, _, le_refl _, h⟩

/-- The output only grows. -/
theorem parseDelimLoop_length_le (n : Nat) :
    ∀ s out0 out : List Nat, s.length ≤ n → parseDelimLoop s out0 = .ok out →
      out0.length ≤ out.length := by
  induction n with
  | zero =>
    intro s out0 out hlen h
    have hs : s = [] := List.length_eq_zero.mp (by omega)
    subst hs
    simp only [parseDelimLoop, Except.ok.injEq] at h
    simp [h]
  | succ n ih =>
    intro s out0 out hlen h
    rcases s with _ | ⟨b, rest⟩
    · simp only [parseDelimLoop, Except.ok.injEq] at h
      simp [h]
    · obtain ⟨v, rest1, hle, h1⟩ := parseDelimLoop_step h
      have := ih rest1 _ _ (by simp only [List.length_cons] at hlen; omega) h1
      simp only [List.length_append, List.length_singleton] at this
      omega

/-- A non-empty spec that compiles gives at least one byte. -/
theorem parseDelimLoop_length_lt {b : Nat} {rest out0 out : List Nat}
    (h : parseDelimLoop (b :: rest) out0 = .ok out) : out0.length < out.length := by
  obtain ⟨v, rest1, _, h1⟩ := parseDelimLoop_step h
  have := parseDelimLoop_length_le rest1.length rest1 _ _ (le_refl _) h1
  simp only [List.length_append, List.length_singleton] at this
  omega

/-- A hex pair that ends in a backslash is not parsed by `ParseUint`. -/
theorem parseUintLoop_backslash (cs : List Nat) :
    ∀ n, parseUintLoop (cs ++ [0x5c]) n = .error .errSyntax ∨
      parseUintLoop (cs ++ [0x5c]) n = .error .errRange := by
  induction cs with
  | nil => intro n; left; simp [parseUintLoop]
  | cons c cs ih =>
    intro n
    simp only [List.cons_append, parseUintLoop]
    split
    · left; rfl
    · split_ifs
      · left; rfl
      · right; rfl
      · right; rfl
      · exact ih _

theorem ParseInt_backslash (h1 : Nat) : ∃ e, ParseInt [h1, 0x5c] = .error e := by
  have key : ∀ cs : List Nat, ∃ e, ParseUint (cs ++ [0x5c]) = .error e := by
    intro cs
    simp only [ParseUint, List.append_eq_nil, List.cons_ne_self, and_false, if_false]
    rcases parseUintLoop_backslash cs 0 with h | h <;> exact ⟨_, h⟩
  simp only [ParseInt]
  by_cases hs : h1 = 0x2b ∨ h1 = 0x2d
  · obtain ⟨e, he⟩ := key []
    simp only [List.nil_append] at he
    simp only [hs, if_true, he]
    cases e <;> exact ⟨_, rfl⟩
  · obtain ⟨e, he⟩ := key [h1]
    simp only [List.singleton_append] at he
    simp only [hs, if_false, he]
    cases e <;> exact ⟨_, rfl⟩

/-- A spec whose last byte is a backslash never compiles. -/
theorem parseDelimLoop_trailing_backslash (n : Nat) :
    ∀ s out0 : List Nat, s.length ≤ n → ∃ e, parseDelimLoop (s ++ [0x5c]) out0 = .error e := by
  induction n with
  | zero =>
    intro s out0 hlen
    have hs : s = [] := List.length_eq_zero.mp (by omega)
    subst hs
    exact ⟨_, parseDelimLoop_end out0⟩
  | succ n ih =>
    intro s out0 hlen
    rcases s with _ | ⟨b, s1⟩
    · exact ⟨_, parseDelimLoop_end out0⟩
    · simp only [List.length_cons] at hlen
      by_cases hb : b = 0x5c
      · subst hb
        rcases s1 with _ | ⟨c, s2⟩
        · exact ⟨_, parseDelimLoop_unknown (by decide) (by decide) (by decide) (by decide) _ _⟩
        · simp only [List.length_cons] at hlen
          simp only [List.cons_append]
          by_cases ht : c = 0x74
          · subst ht
            rw [parseDelimLoop_t]
            exact ih _ _ (by omega)
          by_cases hn : c = 0x6e
          · subst hn
            rw [parseDelimLoop_n]
            exact ih _ _ (by omega)
          by_cases hr : c = 0x72
          · subst hr
            rw [parseDelimLoop_r]
            exact ih _ _ (by omega)
          by_cases hx : c = 0x78
          · subst hx
            rcases s2 with _ | ⟨h1, _ | ⟨h2, s3⟩⟩
            · exact ⟨_, parseDelimLoop_x_one _ _⟩
            · obtain ⟨e, he⟩ := ParseInt_backslash h1
              exact ⟨_, parseDelimLoop_x_err he _ _⟩
            · simp only [List.length_cons] at hlen
              simp only [List.cons_append]
              cases hp : ParseInt [h1, h2] with
              | error e => exact ⟨_, parseDelimLoop_x_err hp _ _⟩
              | ok v =>
                rw [parseDelimLoop_x_ok hp]
                exact ih _ _ (by omega)
          · exact ⟨_, parseDelimLoop_unknown ht hn hr hx _ _⟩
      · rw [List.cons_append, parseDelimLoop_lit hb]
        exact ih _ _ (by omega)

/-! ## Lemmas on `bytes.Index` and `splitDelimFn` -/

theorem indexOf?_nil_sep {sep : List Nat} (h : sep ≠ []) : indexOf? sep [] = none := by
  cases sep with
  | nil => exact absurd rfl h
  | cons a l => simp [indexOf?, List.isPrefixOf]

/-- A match lies inside the data. -/
theorem indexOf?_bound {sep : List Nat} :
    ∀ {s : List Nat} {i : Nat}, indexOf? sep s = some i → i + sep.length ≤ s.length := by
  intro s
  induction s with
  | nil =>
    intro i h
    simp only [indexOf?] at h
    split_ifs at h with hp
    have := (List.isPrefixOf_iff_prefix.mp hp).length_le
    simp only [Option.some.injEq] at h
    subst h
    simpa using this
  | cons c s ih =>
    intro i h
    simp only [indexOf?] at h
    split_ifs at h with hp
    · have := (List.isPrefixOf_iff_prefix.mp hp).length_le
      simp only [Option.some.injEq] at h
      subst h
      simpa using this
    · rcases hj : indexOf? sep s with _ | j
      · rw [hj] at h; cases h
      · rw [hj] at h
        simp only [Option.map_some', Option.some.injEq] at h
        have := ih hj
        simp only [List.length_cons]
        omega

/-- The leftmost match in a buffer stays the leftmost match when the buffer grows. -/
theorem indexOf?_append {sep : List Nat} (ext : List Nat) :
    ∀ {s : List Nat} {i : Nat}, indexOf? sep s = some i → indexOf? sep (s ++ ext) = some i := by
  intro s
  induction s with
  | nil =>
    intro i h
    simp only [indexOf?] at h
    split_ifs at h with hp
    have hsep : sep = [] := by
      have := (List.isPrefixOf_iff_prefix.mp hp).length_le
      exact List.length_eq_zero.mp (by simpa using this)
    subst hsep
    simp only [Option.some.injEq] at h
    subst h
    cases ext <;> simp [indexOf?, List.isPrefixOf]
  | cons c s ih =>
    intro i h
    simp only [indexOf?] at h
    split_ifs at h with hp
    · simp only [Option.some.injEq] at h
      subst h
      have hp1 : sep <+: c :: s := List.isPrefixOf_iff_prefix.mp hp
      have hp2 : sep <+: c :: (s ++ ext) := by
        rw [← List.cons_append]
        exact hp1.trans (List.prefix_append _ _)
      simp [indexOf?, List.isPrefixOf_iff_prefix.mpr hp2]
    · rcases hj : indexOf? sep s with _ | j
      · rw [hj] at h; cases h
      · rw [hj] at h
        simp only [Option.map_some', Option.some.injEq] at h
        have hb := indexOf?_bound hj
        have hnp : ¬ sep.isPrefixOf (c :: (s ++ ext)) = true := by
          intro hq
          have hq1 : sep <+: (c :: s) ++ ext := by
            rw [List.cons_append]; exact List.isPrefixOf_iff_prefix.mp hq
          have : sep <+: c :: s :=
            List.prefix_of_prefix_length_le hq1 (List.prefix_append _ _)
              (by simp only [List.length_cons]; omega)
          exact hp (List.isPrefixOf_iff_prefix.mpr this)
        have hnq : ¬ sep <+: c :: (s ++ ext) := fun hq => hnp (List.isPrefixOf_iff_prefix.mpr hq)
        simp [indexOf?, hnq, ih hj, h]

/-- Without an occurrence of the separator there is no index. -/
theorem indexOf?_eq_none_of_no_occurrence {sep : List Nat} :
    ∀ {s : List Nat}, ¬ sep <:+: s → indexOf? sep s = none := by
  intro s
  induction s with
  | nil =>
    intro h
    simp only [indexOf?]
    split_ifs with hp
    · exact absurd (List.isPrefixOf_iff_prefix.mp hp).isInfix h
    · rfl
  | cons c s ih =>
    intro h
    simp only [indexOf?]
    split_ifs with hp
    · exact absurd (List.isPrefixOf_iff_prefix.mp hp).isInfix h
    · have : ¬ sep <:+: s := fun hi => h (hi.trans (List.suffix_cons c s).isInfix)
      simp [ih this]

theorem splitDelimFn_of_index {delim data : List Nat} {i : Nat} (hd : delim ≠ [])
    (h : indexOf? delim data = some i) (atEOF : Bool) :
    splitDelimFn delim data atEOF = ⟨(i : Int) + 1, some (data.take i), none⟩ := by
  have hb := indexOf?_bound h
  have hl : 0 < delim.length := List.length_pos.mpr hd
  have hne : data.length ≠ 0 := by omega
  simp [splitDelimFn, bytesIndex, h, hne]

theorem splitDelimFn_no_index_more {delim data : List Nat}
    (h : indexOf? delim data = none) :
    splitDelimFn delim data false = ⟨0, none, none⟩ := by
  simp [splitDelimFn, bytesIndex, h]

theorem splitDelimFn_no_index_eof {delim data : List Nat}
    (h : indexOf? delim data = none) (hne : data ≠ []) :
    splitDelimFn delim data true = ⟨(data.length : Int), some data, none⟩ := by
  simp [splitDelimFn, bytesIndex, h, hne]

theorem splitDelimFn_nil_eof (delim : List Nat) :
    splitDelimFn delim [] true = ⟨0, none, none⟩ := by
  simp [splitDelimFn]

/-! ## Lemmas on the scanner loop -/

theorem attempt_of_index {delim buf : List Nat} {i : Nat} (hd : delim ≠ [])
    (h : indexOf? delim buf = some i) (atEOF : Bool) :
    attempt (splitDelimFn delim) buf atEOF = .token (buf.take i) (buf.drop (i + 1)) := by
  have hb := indexOf?_bound h
  have hl : 0 < delim.length := List.length_pos.mpr hd
  have h0 : 0 < buf.length := by omega
  have h1 : ¬ ((i : Int) + 1 < 0) := by omega
  have h2 : ¬ ((i : Int) + 1 > (buf.length : Int)) := by omega
  have h3 : ((i : Int) + 1).toNat = i + 1 := by omega
  simp only [attempt, splitDelimFn_of_index hd h, h0, true_or, if_true, h1, h2, if_false, h3]

theorem attempt_no_index_more {delim buf : List Nat} (h : indexOf? delim buf = none) :
    attempt (splitDelimFn delim) buf false = .more buf := by
  by_cases hb : buf.length > 0
  · simp [attempt, splitDelimFn_no_index_more h, hb]
  · simp [attempt, hb]

theorem attempt_no_index_eof {delim buf : List Nat} (h : indexOf? delim buf = none)
    (hne : buf ≠ []) :
    attempt (splitDelimFn delim) buf true = .token buf [] := by
  have h1 : ¬ ((buf.length : Int) < 0) := by omega
  simp [attempt, splitDelimFn_no_index_eof h hne, h1]

theorem attempt_nil_eof (delim : List Nat) :
    attempt (splitDelimFn delim) [] true = .more [] := by
  simp [attempt, splitDelimFn_nil_eof]

theorem nextToken_length {delim rest tok rest1 : List Nat}
    (h : nextToken delim rest = some (tok, rest1)) : rest1.length < rest.length := by
  simp only [nextToken] at h
  split_ifs at h with hr
  have hpos : 0 < rest.length := List.length_pos.mpr hr
  rcases hi : indexOf? delim rest with _ | i
  · rw [hi] at h
    simp only [Option.some.injEq, Prod.mk.injEq] at h
    rw [← h.2]; simpa using hpos
  · rw [hi] at h
    simp only [Option.some.injEq, Prod.mk.injEq] at h
    rw [← h.2, List.length_drop]; omega

theorem scanAtEOF_meets {delim : List Nat} (hd : delim ≠ []) (buf : List Nat) :
    ScanMeets delim (scanAtEOF (splitDelimFn delim) buf .eof) buf := by
  unfold ScanMeets nextToken
  by_cases hb : buf = []
  · subst hb
    simp [scanAtEOF, attempt_nil_eof]
  · rcases hi : indexOf? delim buf with _ | i
    · simp [hb, scanAtEOF, attempt_no_index_eof hi hb, Scanner.Ok, Scanner.remaining]
    · simp [hb, scanAtEOF, attempt_of_index hd hi, Scanner.Ok, Scanner.remaining]

theorem scanLoop_meets {delim : List Nat} (hd : delim ≠ []) :
    ∀ (src : List (List Nat)) (buf : List Nat),
      ScanMeets delim (scanLoop (splitDelimFn delim) src buf) (buf ++ src.flatten) := by
  intro src
  induction src with
  | nil =>
    intro buf
    simp only [List.flatten_nil, List.append_nil]
    rcases hi : indexOf? delim buf with _ | i
    · simp only [scanLoop, attempt_no_index_more hi]
      exact scanAtEOF_meets hd buf
    · have hb := indexOf?_bound hi
      have hl : 0 < delim.length := List.length_pos.mpr hd
      have hne : buf ≠ [] := by
        intro h0; rw [h0] at hb; simp only [List.length_nil] at hb; omega
      simp [ScanMeets, nextToken, hne, hi, scanLoop, attempt_of_index hd hi, Scanner.Ok,
        Scanner.remaining]
  | cons c src ih =>
    intro buf
    rcases hi : indexOf? delim buf with _ | i
    · simp only [scanLoop, attempt_no_index_more hi]
      have := ih (buf ++ c)
      simpa [List.append_assoc] using this
    · have hb := indexOf?_bound hi
      have hl : 0 < delim.length := List.length_pos.mpr hd
      have hne : buf ++ (c :: src).flatten ≠ [] := by
        intro h0
        have : buf = [] := (List.append_eq_nil.mp h0).1
        rw [this] at hb; simp only [List.length_nil] at hb; omega
      have hi2 := indexOf?_append (c :: src).flatten hi
      have ht : (buf ++ (c :: src).flatten).take i = buf.take i :=
        List.take_append_of_le_length (by omega)
      have hdr : (buf ++ (c :: src).flatten).drop (i + 1)
          = buf.drop (i + 1) ++ (c :: src).flatten :=
        List.drop_append_of_le_length (by omega)
      simp only [ScanMeets, nextToken, hne, if_false, hi2, ht, hdr, scanLoop,
        attempt_of_index hd hi, Scanner.Ok, Scanner.remaining, true_and, true_or]

theorem Scan_meets {delim : List Nat} (hd : delim ≠ []) {sc : Scanner} (hok : sc.Ok) :
    ScanMeets delim (sc.Scan (splitDelimFn delim)) sc.remaining := by
  rcases sc with ⟨buf, src, err⟩
  rcases hok with h | ⟨h, hs⟩
  · simp only at h
    subst h
    exact scanLoop_meets hd src buf
  · simp only at h hs
    subst h hs
    simpa [Scanner.Scan, Scanner.remaining] using scanAtEOF_meets hd buf

/-- With enough calls, the scanner loop returns exactly the tokens of the input
it still has to deliver, whatever the chunks it arrives in. -/
theorem scanAll_eq_tokensOf {delim : List Nat} (hd : delim ≠ []) :
    ∀ (fuel : Nat) (sc : Scanner), sc.Ok → sc.remaining.length < fuel →
      scanAll (splitDelimFn delim) fuel sc = some (tokensOf delim fuel sc.remaining) := by
  intro fuel
  induction fuel with
  | zero => intro sc _ h; omega
  | succ fuel ih =>
    intro sc hok hlen
    have hm := Scan_meets hd hok
    unfold ScanMeets at hm
    rcases hs : sc.Scan (splitDelimFn delim) with ⟨o, sc1⟩
    rw [hs] at hm
    rcases hn : nextToken delim sc.remaining with _ | ⟨tok, rest1⟩
    · rw [hn] at hm
      simp only at hm
      subst hm
      simp [scanAll, hs, tokensOf, hn]
    · rw [hn] at hm
      simp only at hm
      obtain ⟨ho, hok1, hrem⟩ := hm
      subst ho
      have hlt := nextToken_length hn
      have := ih sc1 hok1 (by rw [hrem]; omega)
      simp [scanAll, hs, tokensOf, hn, this, hrem]

/-! ## Single-byte delimiters: the tokens are the fields -/

theorem tokensOf_nil (delim : List Nat) (fuel : Nat) : tokensOf delim fuel [] = [] := by
  cases fuel <;> simp [tokensOf, nextToken]

theorem indexOf?_single_none {d : Nat} : ∀ {s : List Nat}, d ∉ s → indexOf? [d] s = none := by
  intro s
  induction s with
  | nil => intro _; simp [indexOf?, List.isPrefixOf]
  | cons c s ih =>
    intro h
    simp only [List.mem_cons, not_or] at h
    simp [indexOf?, List.isPrefixOf, h.1, ih h.2]

theorem indexOf?_single_first {d : Nat} (post : List Nat) :
    ∀ {pre : List Nat}, d ∉ pre → indexOf? [d] (pre ++ d :: post) = some pre.length := by
  intro pre
  induction pre with
  | nil => intro _; simp [indexOf?, List.isPrefixOf]
  | cons c pre ih =>
    intro h
    simp only [List.mem_cons, not_or] at h
    simp [indexOf?, List.isPrefixOf, h.1, ih h.2]

/-- A byte that occurs in a list has a first occurrence. -/
theorem exists_first_occurrence {d : Nat} :
    ∀ {s : List Nat}, d ∈ s → ∃ pre post, s = pre ++ d :: post ∧ d ∉ pre := by
  intro s
  induction s with
  | nil => intro h; cases h
  | cons c s ih =>
    intro h
    by_cases hc : d = c
    · exact ⟨[], s, by simp [hc], by simp⟩
    · have hs : d ∈ s := by
        rcases List.mem_cons.mp h with h1 | h1
        · exact absurd h1 hc
        · exact h1
      obtain ⟨pre, post, he, hn⟩ := ih hs
      refine ⟨c :: pre, post, by simp [he], ?_⟩
      simp only [List.mem_cons, not_or]
      exact ⟨hc, hn⟩

theorem nextToken_single_none {d : Nat} {s : List Nat} (hs : s ≠ []) (h : d ∉ s) :
    nextToken [d] s = some (s, []) := by
  simp [nextToken, hs, indexOf?_single_none h]

theorem nextToken_single_first {d : Nat} {pre : List Nat} (post : List Nat) (h : d ∉ pre) :
    nextToken [d] (pre ++ d :: post) = some (pre, post) := by
  simp [nextToken, indexOf?_single_first post h]

theorem splitOn_of_not_mem {d : Nat} {s : List Nat} (h : d ∉ s) : s.splitOn d = [s] := by
  refine List.splitOnP_eq_single _ _ ?_
  intro x hx hp
  rw [eq_of_beq hp] at hx
  exact h hx

theorem splitOn_first {d : Nat} {pre : List Nat} (post : List Nat) (h : d ∉ pre) :
    (pre ++ d :: post).splitOn d = pre :: post.splitOn d := by
  refine List.splitOnP_first _ _ ?_ d (by simp) post
  intro x hx hp
  rw [eq_of_beq hp] at hx
  exact h hx

/-- Every occurrence of the delimiter ends a field and starts the next one. -/
theorem splitOn_append_sep (d : Nat) (post : List Nat) :
    ∀ pre : List Nat, (pre ++ d :: post).splitOn d = pre.splitOn d ++ post.splitOn d := by
  intro pre
  induction pre with
  | nil => simp [List.splitOn]
  | cons c pre ih =>
    simp only [List.splitOn] at ih ⊢
    simp only [List.cons_append, List.splitOnP_cons, ih]
    split_ifs
    · simp
    · rcases hp : List.splitOnP (fun x => x == d) pre with _ | ⟨f, fs⟩
      · exact absurd hp (List.splitOnP_ne_nil _ _)
      · simp [List.modifyHead]

theorem splitOn_replicate_append (d : Nat) (post : List Nat) :
    ∀ k : Nat, (List.replicate k d ++ post).splitOn d
      = List.replicate k [] ++ post.splitOn d := by
  intro k
  induction k with
  | zero => simp
  | succ k ih =>
    have := splitOn_first (List.replicate k d ++ post) (List.not_mem_nil d)
    simp only [List.nil_append] at this
    simp [List.replicate_succ, this, ih]

/-- No field contains the delimiter. -/
theorem not_mem_of_mem_splitOn (d : Nat) (n : Nat) :
    ∀ s : List Nat, s.length ≤ n → ∀ t ∈ s.splitOn d, d ∉ t := by
  induction n with
  | zero =>
    intro s hlen t ht
    have hs : s = [] := List.length_eq_zero.mp (by omega)
    subst hs
    simp only [List.splitOn_nil, List.mem_singleton] at ht
    subst ht
    simp
  | succ n ih =>
    intro s hlen t ht
    by_cases hd : d ∈ s
    · obtain ⟨pre, post, he, hn⟩ := exists_first_occurrence hd
      subst he
      rw [splitOn_first post hn] at ht
      rcases List.mem_cons.mp ht with h1 | h1
      · subst h1; exact hn
      · refine ih post ?_ t h1
        simp only [List.length_append, List.length_cons] at hlen
        omega
    · rw [splitOn_of_not_mem hd] at ht
      simp only [List.mem_singleton] at ht
      subst ht
      exact hd

/-- On an input that does not end with the delimiter the tokens are the fields. -/
theorem tokensOf_single_unterminated (d : Nat) :
    ∀ (fuel : Nat) (s : List Nat), s.length < fuel → s ≠ [] → ¬ [d] <:+ s →
      tokensOf [d] fuel s = s.splitOn d := by
  intro fuel
  induction fuel with
  | zero => intro s h; omega
  | succ fuel ih =>
    intro s hlen hs hend
    by_cases hd : d ∈ s
    · obtain ⟨pre, post, he, hn⟩ := exists_first_occurrence hd
      subst he
      have hpost : post ≠ [] := by
        intro h0
        subst h0
        exact hend ⟨pre, rfl⟩
      have hend1 : ¬ [d] <:+ post := by
        intro hsuf
        apply hend
        exact hsuf.trans ⟨pre ++ [d], by simp⟩
      have hlen1 : post.length < fuel := by
        simp only [List.length_append, List.length_cons] at hlen
        omega
      simp [tokensOf, nextToken_single_first post hn, ih post hlen1 hpost hend1,
        splitOn_first post hn]
    · simp [tokensOf, nextToken_single_none hs hd, tokensOf_nil, splitOn_of_not_mem hd]

/-- On an input that ends with the delimiter the tokens are the fields of the
input without that last delimiter. -/
theorem tokensOf_single_terminated (d : Nat) :
    ∀ (fuel : Nat) (pre : List Nat), pre.length + 1 < fuel →
      tokensOf [d] fuel (pre ++ [d]) = pre.splitOn d := by
  intro fuel
  induction fuel with
  | zero => intro s h; omega
  | succ fuel ih =>
    intro pre hlen
    by_cases hd : d ∈ pre
    · obtain ⟨p1, p2, he, hn⟩ := exists_first_occurrence hd
      subst he
      have hlen1 : p2.length + 1 < fuel := by
        simp only [List.length_append, List.length_cons] at hlen
        omega
      have hshape : p1 ++ d :: p2 ++ [d] = p1 ++ d :: (p2 ++ [d]) := by simp
      rw [hshape]
      simp [tokensOf, nextToken_single_first (p2 ++ [d]) hn, ih p2 hlen1,
        splitOn_first p2 hn]
    · simp [tokensOf, nextToken_single_first [] hd, tokensOf_nil, splitOn_of_not_mem hd]

/-! ## Lemmas on the produce loop -/

theorem pairRecords_length (topic : String) (n : Nat) :
    ∀ toks : List (List Nat), toks.length ≤ n →
      (pairRecords topic toks).length = toks.length / 2 := by
  induction n with
  | zero =>
    intro toks h
    have : toks = [] := List.length_eq_zero.mp (by omega)
    subst this
    simp [pairRecords]
  | succ n ih =>
    intro toks h
    rcases toks with _ | ⟨k, _ | ⟨v, rest⟩⟩
    · simp [pairRecords]
    · simp [pairRecords]
    · simp only [List.length_cons] at h
      have := ih rest (by omega)
      simp only [pairRecords, List.length_cons, this]
      omega

theorem produceLoop_value_only (topic : String) (produce : Record → Option String)
    (hacc : ∀ r, produce r = none) :
    ∀ (toks : List (List Nat)) (sent : List Record),
      produceLoop false topic produce toks sent = ⟨sent ++ valueRecords topic toks, none⟩ := by
  intro toks
  induction toks with
  | nil => intro sent; simp [produceLoop, valueRecords]
  | cons tok rest ih =>
    intro sent
    rw [produceLoop.eq_def]
    simp [hacc, ih, valueRecords]

theorem produceLoop_keyed (topic : String) (produce : Record → Option String)
    (hacc : ∀ r, produce r = none) (n : Nat) :
    ∀ (toks : List (List Nat)) (sent : List Record), toks.length ≤ n →
      produceLoop true topic produce toks sent =
        ⟨sent ++ pairRecords topic toks,
          if toks.length % 2 = 1 then some .missingFinalValue else none⟩ := by
  induction n with
  | zero =>
    intro toks sent h
    have : toks = [] := List.length_eq_zero.mp (by omega)
    subst this
    simp [produceLoop, pairRecords]
  | succ n ih =>
    intro toks sent h
    rcases toks with _ | ⟨k, _ | ⟨v, rest⟩⟩
    · simp [produceLoop, pairRecords]
    · simp [produceLoop, pairRecords]
    · simp only [List.length_cons] at h
      have := ih rest (sent ++ [⟨topic, some (appendToMake k), appendToMake v⟩]) (by omega)
      have hmod : (rest.length + 1 + 1) % 2 = rest.length % 2 := by omega
      simp [produceLoop, hacc, this, pairRecords, hmod]

/-! ## Lemmas on the scanner loop with its buffer -/

theorem scanRound_of_index {delim : List Nat} (hd : delim ≠ []) (maxBuf : Int)
    (sc : BufScanner) {i : Nat} (h : indexOf? delim sc.buf = some i) :
    scanRound (splitDelimFn delim) maxBuf sc
      = .done (some (sc.buf.take i))
          { sc with start := sc.start + (i + 1), buf := sc.buf.drop (i + 1) } := by
  have hb := indexOf?_bound h
  have hl : 0 < delim.length := List.length_pos.mpr hd
  have h0 : 0 < sc.buf.length := by omega
  have h1 : ¬ ((i : Int) + 1 < 0) := by omega
  have h2 : ¬ ((i : Int) + 1 > (sc.buf.length : Int)) := by omega
  have h3 : ((i : Int) + 1).toNat = i + 1 := by omega
  simp only [scanRound, splitDelimFn_of_index hd h, h0, true_or, if_true, h1, h2, if_false, h3]

theorem scanRound_eof_nil (delim : List Nat) (maxBuf : Int) (sc : BufScanner) {e : ScanErr}
    (he : sc.err = some e) (hb : sc.buf = []) :
    scanRound (splitDelimFn delim) maxBuf sc = .done none { sc with start := 0, buf := [] } := by
  simp [scanRound, he, hb, splitDelimFn_nil_eof, fill]

theorem scanRound_eof_rest {delim : List Nat} (maxBuf : Int) (sc : BufScanner) {e : ScanErr}
    (he : sc.err = some e) (hi : indexOf? delim sc.buf = none) (hb : sc.buf ≠ []) :
    scanRound (splitDelimFn delim) maxBuf sc
      = .done (some sc.buf) { sc with start := sc.start + sc.buf.length, buf := [] } := by
  have h1 : ¬ ((sc.buf.length : Int) < 0) := by omega
  simp [scanRound, he, splitDelimFn_no_index_eof hi hb, h1]

theorem scanRound_more {delim : List Nat} (maxBuf : Int) (sc : BufScanner)
    (he : sc.err = none) (hi : indexOf? delim sc.buf = none) :
    scanRound (splitDelimFn delim) maxBuf sc = fill maxBuf sc := by
  rcases sc with ⟨start, buf, size, src, err⟩
  simp only at he hi
  subst he
  have h1 : ¬ ((buf.length : Int) < 0) := by omega
  by_cases hb : buf.length > 0
  · simp [scanRound, splitDelimFn_no_index_more hi, hb, h1]
  · simp [scanRound, hb]

theorem readLoop_nil (free left : Nat) :
    readLoop free (left + 1) [] = ([], [], some .eof) := rfl

theorem readLoop_cons {free : Nat} (left : Nat) {c : List Nat} (rest : List (List Nat))
    (hc : c ≠ []) (hfree : 0 < free) :
    readLoop free (left + 1) (c :: rest)
      = (c.take free, if c.length ≤ free then rest else c.drop free :: rest, none) := by
  have hf : free ≠ 0 := by omega
  by_cases hle : c.length ≤ free
  · simp [readLoop, hle, hc, List.take_of_length_le hle]
  · simp [readLoop, hle, hf]

/-- Without a token and with the data shorter than `maxBuf`, the round makes
room behind the data and reads. -/
theorem fill_reads (maxBuf : Int) (start : Nat) (buf : List Nat) (size : Nat)
    (src : List (List Nat)) (hin : start + buf.length ≤ size)
    (hfit : (buf.length : Int) < maxBuf) :
    ∃ start2 size2, start2 + buf.length < size2 ∧
      fill maxBuf ⟨start, buf, size, src, none⟩
        = .again (readInto ⟨start2, buf, size2, src, none⟩) := by
  simp only [fill, ne_eq, not_true_eq_false, if_false]
  split_ifs <;> first
    | (exfalso; omega)
    | exact ⟨_, _, by omega, rfl⟩

/-- When the next token fits the buffer, `Scan` on the scanner with its buffer
returns within the bound on its rounds, with the next token of the remaining
input, in whatever bursts the reader delivers it. -/
theorem bufScan_meets {delim : List Nat} (hd : delim ≠ []) (maxBuf : Int) :
    ∀ (fuel : Nat) (sc : BufScanner), sc.Ok → Fits delim maxBuf sc.remaining →
      sc.rounds ≤ fuel →
      ∃ r, sc.Scan (splitDelimFn delim) maxBuf fuel = some r ∧ BufMeets delim r sc.remaining := by
  intro fuel
  induction fuel with
  | zero =>
    intro sc _ _ hr
    simp only [BufScanner.rounds] at hr
    split_ifs at hr <;> omega
  | succ n ih =>
    intro sc hok hfit hr
    rcases sc with ⟨start, buf, size, src, err⟩
    obtain ⟨herr, hin, hne⟩ := hok
    simp only at herr hin hne
    simp only [BufScanner.remaining] at hfit ⊢
    have hl : 0 < delim.length := List.length_pos.mpr hd
    rcases hi : indexOf? delim buf with _ | i
    · rcases herr with he | ⟨he, hs⟩
      · subst he
        have hfitb : (buf.length : Int) < maxBuf := by
          refine hfit buf.length (by simp) ?_
          rw [List.take_left']
          · exact hi
          · rfl
        obtain ⟨start2, size2, hfree, hfill⟩ := fill_reads maxBuf start buf size src hin hfitb
        have hround := scanRound_more maxBuf ⟨start, buf, size, src, none⟩ rfl hi
        rw [hfill] at hround
        simp only [BufScanner.Scan, hround]
        rcases src with _ | ⟨c, rest⟩
        · have hread : readInto ⟨start2, buf, size2, [], none⟩
              = ⟨start2, buf, size2, [], some .eof⟩ := by
            simp [readInto, readLoop]
          rw [hread]
          have := ih ⟨start2, buf, size2, [], some .eof⟩
            ⟨Or.inr ⟨rfl, rfl⟩, by simp only; omega, by simp⟩
            (by simpa [BufScanner.remaining] using hfit)
            (by simp only [BufScanner.rounds] at hr ⊢; simp at hr ⊢; omega)
          simpa [BufScanner.remaining] using this
        · have hc : c ≠ [] := hne c (List.mem_cons_self _ _)
          have hcl : 0 < c.length := List.length_pos.mpr hc
          have hfree2 : 0 < size2 - (start2 + buf.length) := by omega
          by_cases hle : c.length ≤ size2 - (start2 + buf.length)
          · have hread : readInto ⟨start2, buf, size2, c :: rest, none⟩
                = ⟨start2, buf ++ c, size2, rest, none⟩ := by
              simp [readInto, readLoop_cons 100 rest hc hfree2, hle, List.take_of_length_le hle]
            rw [hread]
            have := ih ⟨start2, buf ++ c, size2, rest, none⟩
              ⟨Or.inl rfl, by simp only [List.length_append]; omega,
                fun x hx => hne x (List.mem_cons_of_mem _ hx)⟩
              (by simpa [BufScanner.remaining, List.append_assoc] using hfit)
              (by
                simp only [BufScanner.rounds, List.flatten_cons, List.length_append,
                  if_true] at hr ⊢
                omega)
            simpa [BufScanner.remaining, List.append_assoc] using this
          · have hread : readInto ⟨start2, buf, size2, c :: rest, none⟩
                = ⟨start2, buf ++ c.take (size2 - (start2 + buf.length)), size2,
                    c.drop (size2 - (start2 + buf.length)) :: rest, none⟩ := by
              simp [readInto, readLoop_cons 100 rest hc hfree2, hle]
            rw [hread]
            have hdrop : c.drop (size2 - (start2 + buf.length)) ≠ [] := by
              intro h0
              have := congrArg List.length h0
              simp only [List.length_drop, List.length_nil] at this
              omega
            have hrem : buf ++ c.take (size2 - (start2 + buf.length))
                ++ (c.drop (size2 - (start2 + buf.length)) :: rest).flatten
                = buf ++ (c :: rest).flatten := by
              simp only [List.flatten_cons, List.append_assoc]
              rw [← List.append_assoc (c.take _), List.take_append_drop]
            have := ih ⟨start2, buf ++ c.take (size2 - (start2 + buf.length)), size2,
                c.drop (size2 - (start2 + buf.length)) :: rest, none⟩
              ⟨Or.inl rfl, by
                  simp only [List.length_append, List.length_take]; omega,
                by
                  intro x hx
                  rcases List.mem_cons.mp hx with h1 | h1
                  · subst h1; exact hdrop
                  · exact hne x (List.mem_cons_of_mem _ h1)⟩
              (by simp only [BufScanner.remaining]; rw [hrem]; exact hfit)
              (by
                simp only [BufScanner.rounds, List.flatten_cons, List.length_append,
                  List.length_drop, if_true] at hr ⊢
                omega)
            simp only [BufScanner.remaining] at this
            rw [hrem] at this
            exact this
      · subst he hs
        simp only [List.flatten_nil, List.append_nil] at hfit ⊢
        by_cases hb : buf = []
        · subst hb
          have hround := scanRound_eof_nil delim maxBuf
            ⟨start, [], size, [], some .eof⟩ rfl rfl
          refine ⟨(none, ⟨0, [], size, [], some .eof⟩),
            by simp only [BufScanner.Scan, hround], ?_⟩
          simp [BufMeets, nextToken]
        · have hround := scanRound_eof_rest maxBuf
            ⟨start, buf, size, [], some .eof⟩ rfl hi hb
          refine ⟨(some buf, ⟨start + buf.length, [], size, [], some .eof⟩),
            by simp only [BufScanner.Scan, hround], ?_⟩
          simp only [BufMeets, nextToken, hb, if_false, hi, BufScanner.Ok, BufScanner.remaining,
            List.flatten_nil, List.append_nil, List.length_nil, true_and]
          exact ⟨⟨Or.inr trivial, by omega, by simp⟩, trivial⟩
    · have hb := indexOf?_bound hi
      have hround := scanRound_of_index hd maxBuf ⟨start, buf, size, src, err⟩ hi
      refine ⟨(some (buf.take i), ⟨start + (i + 1), buf.drop (i + 1), size, src, err⟩),
        by simp only [BufScanner.Scan, hround], ?_⟩
      have hne2 : buf ++ src.flatten ≠ [] := by
        intro h0
        have : buf = [] := (List.append_eq_nil.mp h0).1
        rw [this] at hb; simp only [List.length_nil] at hb; omega
      have hi2 := indexOf?_append src.flatten hi
      have ht : (buf ++ src.flatten).take i = buf.take i :=
        List.take_append_of_le_length (by omega)
      have hdr : (buf ++ src.flatten).drop (i + 1) = buf.drop (i + 1) ++ src.flatten :=
        List.drop_append_of_le_length (by omega)
      simp only [BufMeets, nextToken, hne2, if_false, hi2, ht, hdr, BufScanner.Ok,
        BufScanner.remaining, true_and]
      refine ⟨⟨herr, ?_, hne⟩, ?_⟩
      · simp only [List.length_drop]
        omega
      · trivial

theorem BufScanner.rounds_le (sc : BufScanner) : sc.rounds ≤ sc.remaining.length + 2 := by
  simp only [BufScanner.rounds, BufScanner.remaining, List.length_append]
  split_ifs <;> omega

theorem Fits_nil (delim : List Nat) {maxBuf : Int} (h : 0 < maxBuf) : Fits delim maxBuf [] := by
  intro k hk _
  simp only [List.length_nil, Nat.le_zero_eq] at hk
  subst hk
  simpa using h

/-- A first field shorter than `maxBuf` fits the buffer. -/
theorem Fits_first {d : Nat} {p : List Nat} (post : List Nat) {maxBuf : Int} (hd : d ∉ p)
    (hlen : (p.length : Int) < maxBuf) : Fits [d] maxBuf (p ++ d :: post) := by
  intro k _ hnone
  by_cases hk : k ≤ p.length
  · omega
  · exfalso
    obtain ⟨m, hm⟩ : ∃ m, k - p.length = m + 1 := ⟨k - p.length - 1, by omega⟩
    have htake : (p ++ d :: post).take k = p ++ d :: post.take m := by
      rw [List.take_append_eq_append_take, List.take_of_length_le (by omega), hm,
        List.take_succ_cons]
    rw [htake, indexOf?_single_first (post.take m) hd] at hnone
    cases hnone

theorem scanAllBuf_nil {delim : List Nat} (hd : delim ≠ []) {maxBuf : Int} (hmax : 0 < maxBuf)
    {rounds : Nat} (hr : 2 ≤ rounds) (calls : Nat) {sc : BufScanner} (hok : sc.Ok)
    (hrem : sc.remaining = []) :
    scanAllBuf (splitDelimFn delim) maxBuf rounds (calls + 1) sc = some [] := by
  have hfit : Fits delim maxBuf sc.remaining := by rw [hrem]; exact Fits_nil delim hmax
  have hrl := sc.rounds_le
  rw [hrem] at hrl
  obtain ⟨r, hs, hm⟩ := bufScan_meets hd maxBuf rounds sc hok hfit
    (by simp only [List.length_nil] at hrl; omega)
  rw [hrem] at hm
  rcases r with ⟨o, sc1⟩
  simp only [BufMeets, nextToken, if_true] at hm
  subst hm
  simp [scanAllBuf, hs]

/-- On an input that ends with the delimiter and whose fields are all shorter
than `maxBuf`, the scanner with its buffer returns the fields of the input
without that last delimiter. -/
theorem scanAllBuf_terminated (d : Nat) (maxBuf : Int) (rounds : Nat) :
    ∀ (calls : Nat) (sc : BufScanner) (pre : List Nat), sc.Ok →
      sc.remaining = pre ++ [d] →
      (∀ t ∈ pre.splitOn d, (t.length : Int) < maxBuf) →
      pre.length + 1 < calls → pre.length + 3 ≤ rounds →
      scanAllBuf (splitDelimFn [d]) maxBuf rounds calls sc = some (pre.splitOn d) := by
  intro calls
  induction calls with
  | zero => intro sc pre _ _ _ h; omega
  | succ calls ih =>
    intro sc pre hok hrem hfields hcalls hrounds
    have hdne : [d] ≠ [] := List.cons_ne_nil d []
    have hrl := sc.rounds_le
    rw [hrem] at hrl
    simp only [List.length_append, List.length_singleton] at hrl
    by_cases hd : d ∈ pre
    · obtain ⟨p1, p2, he, hn⟩ := exists_first_occurrence hd
      subst he
      have hshape : p1 ++ d :: p2 ++ [d] = p1 ++ d :: (p2 ++ [d]) := by simp
      rw [hshape] at hrem
      rw [splitOn_first p2 hn] at hfields ⊢
      have hfit : Fits [d] maxBuf sc.remaining := by
        rw [hrem]
        exact Fits_first _ hn (hfields p1 (List.mem_cons_self _ _))
      obtain ⟨r, hs, hm⟩ := bufScan_meets hdne maxBuf rounds sc hok hfit (by omega)
      rw [hrem] at hm
      rcases r with ⟨o, sc1⟩
      simp only [BufMeets, nextToken_single_first (p2 ++ [d]) hn] at hm
      obtain ⟨ho, hok1, hrem1⟩ := hm
      subst ho
      simp only [List.length_append, List.length_cons] at hcalls hrounds
      have := ih sc1 p2 hok1 hrem1 (fun t ht => hfields t (List.mem_cons_of_mem _ ht))
        (by omega) (by omega)
      simp [scanAllBuf, hs, this]
    · rw [splitOn_of_not_mem hd] at hfields ⊢
      have hlen : (pre.length : Int) < maxBuf := hfields pre (List.mem_singleton_self _)
      have hfit : Fits [d] maxBuf sc.remaining := by
        rw [hrem]
        exact Fits_first _ hd hlen
      obtain ⟨r, hs, hm⟩ := bufScan_meets hdne maxBuf rounds sc hok hfit (by omega)
      rw [hrem] at hm
      rcases r with ⟨o, sc1⟩
      simp only [BufMeets, nextToken_single_first [] hd] at hm
      obtain ⟨ho, hok1, hrem1⟩ := hm
      subst ho
      obtain ⟨c, hc⟩ : ∃ c, calls = c + 1 := ⟨calls - 1, by omega⟩
      subst hc
      have := scanAllBuf_nil hdne (by omega : (0 : Int) < maxBuf) (by omega : 2 ≤ rounds) c
        hok1 hrem1
      rw [scanAllBuf]
      simp [hs, this]

/-- With a buffer limit of 4 bytes a first field of eight bytes stops the scan
with `ErrTooLong` before any token is returned. -/
theorem scan_stops_on_long_field :
    BufScanner.Scan (splitDelimFn [0x2c]) 4 20
        (BufScanner.new [[0x61, 0x62, 0x63, 0x64, 0x65, 0x66, 0x67, 0x68, 0x2c, 0x78, 0x2c]])
      = some (none, ⟨0, [0x61, 0x62, 0x63, 0x64], 4,
          [[0x65, 0x66, 0x67, 0x68, 0x2c, 0x78, 0x2c]], some .tooLong⟩) := by
  rfl

/-! ## The properties of the specification -/

/-- C1: on the buffered input "xaby" with the two-byte delimiter "ab" the split
function returns the token "x" but advances by 2 (the index of the match plus
one), not by 3 (past the whole match), so the next token starts inside the
delimiter and the scanner loop yields the tokens "x" and "by". -/
theorem splitDelimFn_multibyte_advance :
    splitDelimFn [0x61, 0x62] [0x78, 0x61, 0x62, 0x79] true = ⟨2, some [0x78], none⟩ ∧
    scanAll (splitDelimFn [0x61, 0x62]) 5 (Scanner.whole [0x78, 0x61, 0x62, 0x79])
      = some [[0x78], [0x62, 0x79]] := by
  constructor <;> rfl

/-- C2: the record built for the one-byte token "a" in value-only mode has the
two-byte value 0x00 0x61, and the record built for the tokens "k", "v" in keyed
mode has the key 0x00 0x6b and the value 0x00 0x76: each field is the token
behind as many zero bytes as the token is long. -/
theorem produceLoop_fields_zero_padded :
    produceLoop false "t" (fun _ => none) [[0x61]] []
      = ⟨[⟨"t", none, [0x00, 0x61]⟩], none⟩ ∧
    produceLoop true "t" (fun _ => none) [[0x6b], [0x76]] []
      = ⟨[⟨"t", some [0x00, 0x6b], [0x00, 0x76]⟩], none⟩ := by
  constructor <;> rfl

/-- C3: for a single-byte delimiter `d` and a non-empty input `s` that does not
end with `d`, the scanner loop returns the fields of `s` between the occurrences
of `d`, in order: no token contains `d`, the tokens joined with `d` give back
`s`, an input without `d` is its own single token, a leading `d` gives an empty
first token, and a run of `k + 1` delimiters gives `k` empty tokens between the
fields before and after it. -/
theorem single_byte_tokens_are_fields (d : Nat) (s : List Nat) (fuel : Nat)
    (hs : s ≠ []) (hend : ¬ [d] <:+ s) (hfuel : s.length < fuel) :
    ∃ toks, scanAll (splitDelimFn [d]) fuel (Scanner.whole s) = some toks ∧
      toks = s.splitOn d ∧
      (∀ t ∈ toks, d ∉ t) ∧
      [d].intercalate toks = s ∧
      (d ∉ s → toks = [s]) ∧
      (∀ s1, s = d :: s1 → toks.head? = some []) ∧
      (∀ pre k post, s = pre ++ List.replicate (k + 1) d ++ post →
        toks = pre.splitOn d ++ List.replicate k [] ++ post.splitOn d) := by
  refine ⟨s.splitOn d, ?_, rfl, ?_, ?_, ?_, ?_, ?_⟩
  · have h := scanAll_eq_tokensOf (List.cons_ne_nil d []) fuel (Scanner.whole s)
      (Or.inr ⟨rfl, rfl⟩) (by simpa [Scanner.whole, Scanner.remaining] using hfuel)
    rw [h]
    simp only [Scanner.whole, Scanner.remaining, List.flatten_nil, List.append_nil]
    rw [tokensOf_single_unterminated d fuel s hfuel hs hend]
  · exact not_mem_of_mem_splitOn d s.length s (le_refl _)
  · exact List.intercalate_splitOn s d
  · exact splitOn_of_not_mem
  · intro s1 h1
    subst h1
    have := splitOn_first s1 (List.not_mem_nil d)
    simp only [List.nil_append] at this
    simp [this]
  · intro pre k post he
    subst he
    rw [List.replicate_succ, List.append_assoc, List.cons_append, splitOn_append_sep,
      splitOn_replicate_append, List.append_assoc]

theorem single_byte_tokens_are_fields_witness :
    scanAll (splitDelimFn [0x2c]) 7 (Scanner.whole [0x61, 0x2c, 0x62, 0x2c, 0x2c, 0x63])
      = some [[0x61], [0x62], [], [0x63]] := by
  obtain ⟨toks, h1, h2, _⟩ :=
    single_byte_tokens_are_fields 0x2c [0x61, 0x2c, 0x62, 0x2c, 0x2c, 0x63] 7
      (by decide) (by decide) (by decide)
  rw [h1, h2]
  rfl

/-- C4, as stated, fails: on the input "a,b," with the delimiter "," and the
default buffer limit of 65536 bytes the scanner loop returns the two tokens "a"
and "b", and not a third, empty one. -/
theorem trailing_delim_gives_no_empty_token :
    scanTokens (splitDelimFn [0x2c]) 65536 6 (BufScanner.new [[0x61, 0x2c, 0x62, 0x2c]])
      = some [[0x61], [0x62]] ∧
    scanTokens (splitDelimFn [0x2c]) 65536 6 (BufScanner.new [[0x61, 0x2c, 0x62, 0x2c]])
      ≠ some [[0x61], [0x62], []] := by
  constructor
  · rfl
  · decide

/-- C4, amended: for an input that ends exactly with the single-byte delimiter
`d` and whose fields are all shorter than the buffer limit `maxBuf`, in whatever
non-empty bursts the reader delivers it, the scanner loop set up by `produceCmd`
returns the fields of the input without its final delimiter and then
terminates: the final delimiter ends the last token and no empty token follows
it. -/
theorem terminated_input_tokens (d : Nat) (pre : List Nat) (chunks : List (List Nat))
    (maxBuf : Int) (fuel : Nat) (hchunks : ∀ c ∈ chunks, c ≠ [])
    (hs : chunks.flatten = pre ++ [d])
    (hfit : ∀ t ∈ pre.splitOn d, (t.length : Int) < maxBuf)
    (hfuel : pre.length + 2 < fuel) :
    scanTokens (splitDelimFn [d]) maxBuf fuel (BufScanner.new chunks)
      = some (pre.splitOn d) :=
  scanAllBuf_terminated d maxBuf fuel fuel (BufScanner.new chunks) pre
    ⟨Or.inl rfl, by simp [BufScanner.new], hchunks⟩
    (by simp [BufScanner.new, BufScanner.remaining, hs]) hfit (by omega) (by omega)

theorem terminated_input_tokens_witness :
    scanTokens (splitDelimFn [0x2c]) 4 10
        (BufScanner.new [[0x61, 0x62, 0x63, 0x2c, 0x65], [0x66, 0x67, 0x2c]])
      = some [[0x61, 0x62, 0x63], [0x65, 0x66, 0x67]] :=
  terminated_input_tokens 0x2c [0x61, 0x62, 0x63, 0x2c, 0x65, 0x66, 0x67]
    [[0x61, 0x62, 0x63, 0x2c, 0x65], [0x66, 0x67, 0x2c]] 4 10
    (by decide) (by decide) (by decide) (by decide)

/-- C5: the spec backslash, x, f, f is rejected with a range error, because the
two hex digits are parsed as a signed 8-bit integer, and the spec backslash, x,
minus, 1, whose first character is not a hex digit, compiles to the byte 0xFF. -/
theorem parseDelim_hex_escape_is_signed :
    parseDelim [0x5c, 0x78, 0x66, 0x66] = .error (.hexParse [0x66, 0x66] .errRange) ∧
    parseDelim [0x5c, 0x78, 0x2d, 0x31] = .ok [0xff] := by
  constructor <;> rfl

/-- C6: when the client accepts every record, a token sequence of odd length ends
the keyed loop with the "missing final value delim" error after one record for
each complete pair, the value-only loop turns the same sequence into one record
per token, in token order, and a token sequence of even length `2 * k` ends the
keyed loop without error after `k` records. -/
theorem pairing_loop_counts (topic : String) (produce : Record → Option String)
    (toks : List (List Nat)) (hacc : ∀ r, produce r = none) :
    (toks.length % 2 = 1 →
      produceLoop true topic produce toks []
        = ⟨pairRecords topic toks, some .missingFinalValue⟩ ∧
      (pairRecords topic toks).length = toks.length / 2) ∧
    (produceLoop false topic produce toks [] = ⟨valueRecords topic toks, none⟩ ∧
      (valueRecords topic toks).length = toks.length) ∧
    (∀ k, toks.length = 2 * k →
      produceLoop true topic produce toks [] = ⟨pairRecords topic toks, none⟩ ∧
      (pairRecords topic toks).length = k) := by
  have hk := produceLoop_keyed topic produce hacc toks.length toks [] (le_refl _)
  have hl := pairRecords_length topic toks.length toks (le_refl _)
  refine ⟨?_, ⟨?_, ?_⟩, ?_⟩
  · intro hodd
    rw [hk]
    simp [hodd, hl]
  · simpa using produceLoop_value_only topic produce hacc toks []
  · simp [valueRecords]
  · intro k hlen
    have hev : ¬ toks.length % 2 = 1 := by omega
    rw [hk]
    refine ⟨by simp [hev], ?_⟩
    rw [hl]; omega

theorem pairing_loop_counts_witness :
    (produceLoop true "t" (fun _ => none) [[0x6b], [0x76], [0x6b]] []
        = ⟨pairRecords "t" [[0x6b], [0x76], [0x6b]], some .missingFinalValue⟩ ∧
      (pairRecords "t" [[0x6b], [0x76], [0x6b]]).length = 1) ∧
    (produceLoop false "t" (fun _ => none) [[0x6b], [0x76], [0x6b]] []
        = ⟨valueRecords "t" [[0x6b], [0x76], [0x6b]], none⟩ ∧
      (valueRecords "t" [[0x6b], [0x76], [0x6b]]).length = 3) :=
  have h := pairing_loop_counts "t" (fun _ => none) [[0x6b], [0x76], [0x6b]] (fun _ => rfl)
  ⟨h.1 (by decide), h.2.1⟩

/-- C7: `parseDelim` fails on every spec with an incomplete or unknown escape: a
spec whose last character is a backslash, a spec in which an escape-starting
backslash is followed by a character other than t, n, r, x, and a spec in which
an escape-starting backslash-x is followed by fewer than two characters. -/
theorem parseDelim_bad_escape_fails (spec : List Nat) (h : BadEscape spec) :
    ∃ e, parseDelim spec = .error e := by
  cases h with
  | trailing s => exact parseDelimLoop_trailing_backslash s.length s [] (le_refl _)
  | unknown pre out c rest hpre ht hn hr hx =>
    refine ⟨.unknownEscape c, ?_⟩
    unfold parseDelim at hpre ⊢
    rw [parseDelimLoop_append _ hpre, parseDelimLoop_unknown ht hn hr hx]
  | shortHex pre out rest hpre hlen =>
    refine ⟨.hexNotTerminated, ?_⟩
    unfold parseDelim at hpre ⊢
    rw [parseDelimLoop_append _ hpre]
    rcases rest with _ | ⟨h1, _ | ⟨h2, rest2⟩⟩
    · exact parseDelimLoop_x_nil _
    · exact parseDelimLoop_x_one _ _
    · simp only [List.length_cons] at hlen; omega

theorem parseDelim_bad_escape_fails_witness :
    BadEscape [0x61, 0x5c, 0x78, 0x34] ∧ ∃ e, parseDelim [0x61, 0x5c, 0x78, 0x34] = .error e :=
  have hb : BadEscape [0x61, 0x5c, 0x78, 0x34] :=
    BadEscape.shortHex [0x61] [0x61] [0x34] rfl (by decide)
  ⟨hb, parseDelim_bad_escape_fails _ hb⟩

/-- C8, as stated, fails: the empty spec is compiled to the empty byte sequence
and no error is signalled. -/
theorem parseDelim_empty_spec_not_signalled :
    parseDelim [] = .ok [] ∧
    ¬ ((∃ e, parseDelim [] = .error e) ∨ (∃ out, parseDelim [] = .ok out ∧ out ≠ [])) := by
  refine ⟨rfl, ?_⟩
  rintro (⟨e, he⟩ | ⟨out, ho, hne⟩)
  · cases he
  · simp only [parseDelim, parseDelimLoop, Except.ok.injEq] at ho
    exact hne ho.symm

/-- C8, amended: for every spec, either `parseDelim` signals an error or it
returns a byte sequence that is empty only when the spec itself is empty; the
empty spec is compiled to the empty byte sequence without an error. -/
theorem parseDelim_empty_only_for_empty_spec (spec : List Nat) :
    (∃ e, parseDelim spec = .error e) ∨
    (∃ out, parseDelim spec = .ok out ∧ (out = [] ↔ spec = [])) := by
  rcases hp : parseDelim spec with e | out
  · exact Or.inl ⟨e, rfl⟩
  · refine Or.inr ⟨out, rfl, ?_⟩
    rcases spec with _ | ⟨b, rest⟩
    · simp only [parseDelim, parseDelimLoop, Except.ok.injEq] at hp
      simp [hp.symm]
    · have := parseDelimLoop_length_lt hp
      constructor
      · intro h0; subst h0; simp at this
      · intro h0; cases h0

/-- C9: for a non-empty delimiter, the scanner loop returns the same tokens
whether the input arrives in any sequence of non-empty chunks or is presented
all at once at the end of the stream.  While more input may come, a buffer
without a complete occurrence of the delimiter makes the split function ask for
more data (advance 0, no token), and a token and advance it returns for a buffer
are returned unchanged for every extension of that buffer. -/
theorem tokens_independent_of_chunking (delim : List Nat) (chunks : List (List Nat))
    (fuel : Nat) (hd : delim ≠ []) (_hchunks : ∀ c ∈ chunks, c ≠ [])
    (hfuel : chunks.flatten.length < fuel) :
    (∃ toks, scanAll (splitDelimFn delim) fuel (Scanner.new chunks) = some toks ∧
      scanAll (splitDelimFn delim) fuel (Scanner.whole chunks.flatten) = some toks) ∧
    (∀ data, ¬ delim <:+: data → splitDelimFn delim data false = ⟨0, none, none⟩) ∧
    (∀ data adv tok err, splitDelimFn delim data false = ⟨adv, some tok, err⟩ →
      ∀ ext atEOF, splitDelimFn delim (data ++ ext) atEOF = ⟨adv, some tok, err⟩) := by
  refine ⟨⟨tokensOf delim fuel chunks.flatten, ?_, ?_⟩, ?_, ?_⟩
  · have h := scanAll_eq_tokensOf hd fuel (Scanner.new chunks) (Or.inl rfl)
      (by simpa [Scanner.new, Scanner.remaining] using hfuel)
    simpa [Scanner.new, Scanner.remaining] using h
  · have h := scanAll_eq_tokensOf hd fuel (Scanner.whole chunks.flatten) (Or.inr ⟨rfl, rfl⟩)
      (by simpa [Scanner.whole, Scanner.remaining] using hfuel)
    simpa [Scanner.whole, Scanner.remaining] using h
  · intro data hno
    exact splitDelimFn_no_index_more (indexOf?_eq_none_of_no_occurrence hno)
  · intro data adv tok err h ext atEOF
    rcases hi : indexOf? delim data with _ | i
    · rw [splitDelimFn_no_index_more hi] at h
      simp at h
    · rw [splitDelimFn_of_index hd hi] at h
      rw [splitDelimFn_of_index hd (indexOf?_append ext hi), ← h]
      have hb := indexOf?_bound hi
      rw [List.take_append_of_le_length (by omega)]

theorem tokens_independent_of_chunking_witness :
    (∃ toks, scanAll (splitDelimFn [0x0d, 0x0a]) 5
        (Scanner.new [[0x61, 0x0d], [0x0a, 0x62]]) = some toks ∧
      scanAll (splitDelimFn [0x0d, 0x0a]) 5
        (Scanner.whole (List.flatten [[0x61, 0x0d], [0x0a, 0x62]])) = some toks) ∧
    splitDelimFn [0x0d, 0x0a] [0x61, 0x0d] false = ⟨0, none, none⟩ :=
  have h := tokens_independent_of_chunking [0x0d, 0x0a] [[0x61, 0x0d], [0x0a, 0x62]] 5
    (by decide) (by decide) (by decide)
  ⟨h.1, h.2.1 [0x61, 0x0d] (by decide)⟩

end Kcl
